import Mathlib

/-!
Shallow embedding of the LSB steganography codec from `stego_tool.py` and the
capacity estimator from `stego_bpp.py`.

An image is modelled, as in the source, by its list of RGB pixels: each pixel
is a triple of 8-bit channel values (`Nat`s; the range constraint `≤ 255`
appears as a hypothesis where a claim needs it).  Machine integers are `Nat`
with the bitwise operators `&&&`/`|||`/`>>>`/`<<<`, which agree with Python's
nonnegative-integer semantics.  Fallible functions return
`Except StegoError α`; each constructor of `StegoError` corresponds to one
`raise ValueError(...)` site of the source, carrying the data interpolated
into the Python error message.
-/

set_option maxRecDepth 10000

/-- Typed counterpart of the `ValueError`s raised by `stego_tool.py`.
`lengthOutOfRange` is `_pack_length`'s "Message length must fit in 32 bits";
`invalidLengthHeader` is `_unpack_length`'s "Invalid length header";
`capacityError` is `embed_message`'s "Message too large for image.
Capacity={c} bytes, needed={n} bytes." with the two interpolated numbers;
`incompleteMessage` is `extract_message`'s
"Image does not contain a complete message." (which carries no data). -/
inductive StegoError where
  | lengthOutOfRange : StegoError
  | invalidLengthHeader : StegoError
  | capacityError (capacityBytes : Nat) (neededBytes : Nat) : StegoError
  | incompleteMessage : StegoError
deriving DecidableEq

/-- One byte as its 8 bits, most significant first: the inner loop
`for shift in range(7, -1, -1): yield (byte >> shift) & 1` of `_to_bits`. -/
def byteToBits (byte : Nat) : List Nat :=
  [byte >>> 7 &&& 1, byte >>> 6 &&& 1, byte >>> 5 &&& 1, byte >>> 4 &&& 1,
   byte >>> 3 &&& 1, byte >>> 2 &&& 1, byte >>> 1 &&& 1, byte >>> 0 &&& 1]

/-- `_to_bits(data)`: every byte of `data` expanded to 8 bits, MSB first. -/
def to_bits (data : List Nat) : List Nat :=
  data.flatMap byteToBits

/-- Accumulator loop of `_bits_to_bytes`: `current` and `count` are the
running byte and the number of bits shifted into it; a byte is emitted
each time `count` reaches 8. -/
def bitsToBytesGo : List Nat → Nat → Nat → List Nat
  | [], _, _ => []
  | bit :: bits, current, count =>
      let current := current <<< 1 ||| bit
      if count + 1 = 8 then current :: bitsToBytesGo bits 0 0
      else bitsToBytesGo bits current (count + 1)

/-- `_bits_to_bytes(bits)`: group bits into bytes of 8, MSB first, dropping
any trailing bits that do not complete a byte. -/
def bits_to_bytes (bits : List Nat) : List Nat :=
  bitsToBytesGo bits 0 0

/-- Big-endian base-256 digits of a length value:
`length.to_bytes(4, "big")` in `_pack_length`. -/
def lengthDigits (length : Nat) : List Nat :=
  [length / 16777216 % 256, length / 65536 % 256, length / 256 % 256, length % 256]

/-- `_pack_length(length)`: 4-byte big-endian header, failing when the
length does not fit in 32 bits. -/
def pack_length (length : Nat) : Except StegoError (List Nat) :=
  if length > 0xFFFFFFFF then .error .lengthOutOfRange
  else .ok (lengthDigits length)

/-- `_unpack_length(length_bytes)`: big-endian decode of exactly 4 bytes;
`int.from_bytes(b, "big")` is the base-256 left fold. -/
def unpack_length (length_bytes : List Nat) : Except StegoError Nat :=
  if length_bytes.length ≠ 4 then .error .invalidLengthHeader
  else .ok (length_bytes.foldl (fun acc b => acc * 256 + b) 0)

/-- Modelled from the spec: the payload is "the UTF-8 encoding of the
message" (`message.encode("utf-8")`, Python's stdlib codec, not part of the
repository).  Standard UTF-8 encoding of one Unicode scalar value, written
with `/`, `%` and `+` (equivalent to the usual shift/mask form on the valid
ranges). -/
def utf8EncodeChar (c : Char) : List Nat :=
  let v := c.toNat
  if v < 0x80 then [v]
  else if v < 0x800 then [0xC0 + v / 64, 0x80 + v % 64]
  else if v < 0x10000 then [0xE0 + v / 4096, 0x80 + v / 64 % 64, 0x80 + v % 64]
  else [0xF0 + v / 262144, 0x80 + v / 4096 % 64, 0x80 + v / 64 % 64, 0x80 + v % 64]

/-- UTF-8 encoding of a message (a sequence of Unicode scalar values). -/
def utf8Encode (message : List Char) : List Nat :=
  message.flatMap utf8EncodeChar

/-- Unicode replacement character U+FFFD. -/
def replChar : Char := Char.ofNat 0xFFFD

/-- Modelled from the spec: `bytes.decode("utf-8", errors="replace")`
(Python's stdlib codec, not part of the repository).  Standard UTF-8
decoding with the documented leniency policy: invalid subsequences become
the replacement character instead of raising.  Overlong encodings,
surrogate code points and leads above `0xF4` are rejected as invalid. -/
def utf8DecodeReplace (l : List Nat) : List Char :=
  match l with
  | [] => []
  | b :: bs =>
    if b < 0x80 then Char.ofNat b :: utf8DecodeReplace bs
    else if b < 0xC2 then replChar :: utf8DecodeReplace bs
    else if b < 0xE0 then
      match bs with
      | [] => [replChar]
      | b1 :: bs1 =>
        if 0x80 ≤ b1 ∧ b1 < 0xC0 then
          Char.ofNat ((b - 0xC0) * 64 + (b1 - 0x80)) :: utf8DecodeReplace bs1
        else replChar :: utf8DecodeReplace (b1 :: bs1)
    else if b < 0xF0 then
      match bs with
      | [] => [replChar]
      | b1 :: bs1 =>
        if (0x80 ≤ b1 ∧ b1 < 0xC0) ∧ ¬(b = 0xE0 ∧ b1 < 0xA0) ∧ ¬(b = 0xED ∧ 0xA0 ≤ b1) then
          match bs1 with
          | [] => [replChar]
          | b2 :: bs2 =>
            if 0x80 ≤ b2 ∧ b2 < 0xC0 then
              Char.ofNat ((b - 0xE0) * 4096 + (b1 - 0x80) * 64 + (b2 - 0x80)) ::
                utf8DecodeReplace bs2
            else replChar :: utf8DecodeReplace (b2 :: bs2)
        else replChar :: utf8DecodeReplace (b1 :: bs1)
    else if b < 0xF5 then
      match bs with
      | [] => [replChar]
      | b1 :: bs1 =>
        if (0x80 ≤ b1 ∧ b1 < 0xC0) ∧ ¬(b = 0xF0 ∧ b1 < 0x90) ∧ ¬(b = 0xF4 ∧ 0x90 ≤ b1) then
          match bs1 with
          | [] => [replChar]
          | b2 :: bs2 =>
            if 0x80 ≤ b2 ∧ b2 < 0xC0 then
              match bs2 with
              | [] => [replChar]
              | b3 :: bs3 =>
                if 0x80 ≤ b3 ∧ b3 < 0xC0 then
                  Char.ofNat ((b - 0xF0) * 262144 + (b1 - 0x80) * 4096 +
                      (b2 - 0x80) * 64 + (b3 - 0x80)) :: utf8DecodeReplace bs3
                else replChar :: utf8DecodeReplace (b3 :: bs3)
            else replChar :: utf8DecodeReplace (b2 :: bs2)
        else replChar :: utf8DecodeReplace (b1 :: bs1)
    else replChar :: utf8DecodeReplace bs
termination_by l.length
decreasing_by all_goals simp <;> omega

/-- One RGB pixel, as in `list(img.getdata())`. -/
abbrev Pixel : Type := Nat × Nat × Nat

/-- Write loop of `embed_message`: consume bits from the front of the list
(the `iter`/`next` protocol over `flat_bits`), replacing channel LSBs with
`(channel & 0xFE) | bit`; a `StopIteration` mid-pixel leaves the remaining
channels of that pixel, and all later pixels, unchanged. -/
def embedLoop : List Nat → List Pixel → List Pixel
  | _, [] => []
  | [], (r, g, b) :: ps => (r, g, b) :: embedLoop [] ps
  | [rb], (r, g, b) :: ps => ((r &&& 0xFE) ||| rb, g, b) :: embedLoop [] ps
  | [rb, gb], (r, g, b) :: ps => ((r &&& 0xFE) ||| rb, (g &&& 0xFE) ||| gb, b) :: embedLoop [] ps
  | rb :: gb :: bb :: bits, (r, g, b) :: ps =>
      ((r &&& 0xFE) ||| rb, (g &&& 0xFE) ||| gb, (b &&& 0xFE) ||| bb) :: embedLoop bits ps

/-- `embed_message`: frame the message as 32-bit length header plus UTF-8
payload, check capacity (3 channels per pixel, 1 bit per channel), then
write the frame bits into the channel LSBs.  Image decode/encode and file
paths are external collaborators and are not modelled. -/
def embed_message (pixels : List Pixel) (message : List Char) :
    Except StegoError (List Pixel) := do
  let payload := utf8Encode message
  let header ← pack_length payload.length
  let payload_bits := to_bits (header ++ payload)
  let capacity_bits := pixels.length * 3
  if payload_bits.length > capacity_bits then
    .error (.capacityError (capacity_bits / 8) (payload_bits.length / 8))
  else
    .ok (embedLoop payload_bits pixels)

/-- `extract_message`: pull the LSB of every channel in raster order, decode
the first 32 bits as the big-endian length, check the remaining bits cover
the declared message, and decode the payload as UTF-8 with replacement. -/
def extract_message (pixels : List Pixel) : Except StegoError (List Char) := do
  let bits := pixels.flatMap (fun p => [p.1 &&& 1, p.2.1 &&& 1, p.2.2 &&& 1])
  let length_bits := bits.take 32
  let message_length ← unpack_length (bits_to_bytes length_bits)
  let message_bit_count := message_length * 8
  let message_bits := (bits.drop 32).take message_bit_count
  if message_bits.length < message_bit_count then
    .error .incompleteMessage
  else
    .ok (utf8DecodeReplace (bits_to_bytes message_bits))

/-- Flat channel sequence of a pixel list: (R,G,B) interleaved in raster
order — the spec's ChannelSequence view of the image. -/
def channelsOf : List Pixel → List Nat
  | [] => []
  | p :: ps => p.1 :: p.2.1 :: p.2.2 :: channelsOf ps

/-- LSB stream of a pixel list, exactly as `extract_message` collects it. -/
def bitsOf : List Pixel → List Nat
  | [] => []
  | p :: ps => (p.1 &&& 1) :: (p.2.1 &&& 1) :: (p.2.2 &&& 1) :: bitsOf ps

/-- Flat-channel view of the embed write loop: replace the LSB of the first
`bits.length` channels by the corresponding bit, copy the rest verbatim. -/
def writeBits : List Nat → List Nat → List Nat
  | _, [] => []
  | [], cs => cs
  | b :: bs, c :: cs => ((c &&& 0xFE) ||| b) :: writeBits bs cs

/-- Result record of `compute_bpp` in `stego_bpp.py` (the `BppResult`
TypedDict).  `used_bpp` is modelled as an exact rational; the source
computes it with Python float division of the same two integers. -/
structure BppResult where
  width : Nat
  height : Nat
  pixels : Nat
  capacity_bits : Nat
  capacity_bytes : Nat
  header_bits : Nat
  payload_bits : Nat
  total_bits : Nat
  used_bpp : ℚ
  fits : Bool
deriving DecidableEq

/-- `compute_bpp` of `stego_bpp.py`, at its default parameters
`bits_per_channel=1, channels=3` (the only values the repository uses);
the image is represented by its dimensions, as only `img.size` is read. -/
def compute_bpp (width height : Nat) (message : List Char) : BppResult :=
  let pixels := width * height
  let capacity_bits := pixels * 3 * 1
  let header_bits := 32
  let payload_bits := (utf8Encode message).length * 8
  let total_bits := header_bits + payload_bits
  let used_bpp : ℚ := if pixels = 0 then 0 else (total_bits : ℚ) / (pixels : ℚ)
  { width := width
    height := height
    pixels := pixels
    capacity_bits := capacity_bits
    capacity_bytes := capacity_bits / 8
    header_bits := header_bits
    payload_bits := payload_bits
    total_bits := total_bits
    used_bpp := used_bpp
    fits := decide (total_bits ≤ capacity_bits) }

/-- Mutation-tracking state for the embed write loop: `input` is the
caller's pixel list exactly as the running function sees it, `bits` the
not-yet-written frame bits (the `flat_bits` iterator), `out` the
`new_pixels` accumulator.  A translation of `embed_message` that wrote to
the caller's data would have to update `input`; the faithful one never
does. -/
structure EmbedSt where
  input : List Pixel
  bits : List Nat
  out : List Pixel
deriving DecidableEq

/-- One iteration of the `for r, g, b in pixels` loop of `embed_message`:
take up to three bits for the current pixel and append the resulting pixel
to `new_pixels`. -/
def stepOnePixel (s : EmbedSt) (p : Pixel) : EmbedSt :=
  match s.bits, p with
  | [], (r, g, b) => { s with out := s.out ++ [(r, g, b)] }
  | [rb], (r, g, b) => { s with bits := [], out := s.out ++ [((r &&& 0xFE) ||| rb, g, b)] }
  | [rb, gb], (r, g, b) =>
      { s with bits := [], out := s.out ++ [((r &&& 0xFE) ||| rb, (g &&& 0xFE) ||| gb, b)] }
  | rb :: gb :: bb :: rest, (r, g, b) =>
      { s with bits := rest,
               out := s.out ++ [((r &&& 0xFE) ||| rb, (g &&& 0xFE) ||| gb, (b &&& 0xFE) ||| bb)] }

/-- The embed write loop over a list of pixels still to visit. -/
def embedLoopSt (s : EmbedSt) : List Pixel → EmbedSt
  | [] => s
  | p :: ps => embedLoopSt (stepOnePixel s p) ps

/-- State-passing rendering of `embed_message`: returns the final loop
state together with the call's result, so that (absence of) mutation of the
caller's pixel list is an explicit, provable fact rather than a convention
of the pure embedding.  On the capacity failure path the function returns
before the write loop runs, so `out` stays empty. -/
def embed_message_st (pixels : List Pixel) (message : List Char) :
    EmbedSt × Except StegoError (List Pixel) :=
  match pack_length (utf8Encode message).length with
  | .error e => ({ input := pixels, bits := [], out := [] }, .error e)
  | .ok header =>
    let payload_bits := to_bits (header ++ utf8Encode message)
    if payload_bits.length > pixels.length * 3 then
      ({ input := pixels, bits := payload_bits, out := [] },
       .error (.capacityError (pixels.length * 3 / 8) (payload_bits.length / 8)))
    else
      let final := embedLoopSt { input := pixels, bits := payload_bits, out := [] } pixels
      (final, .ok final.out)

/-! ### Basic facts about the embed write loop and the channel views -/

theorem embedLoop_nil (ps : List Pixel) : embedLoop [] ps = ps := by
  induction ps with
  | nil => rfl
  | cons p ps ih => obtain ⟨r, g, b⟩ := p; simp [embedLoop, ih]

theorem writeBits_nil_left (cs : List Nat) : writeBits [] cs = cs := by
  cases cs <;> rfl

theorem channelsOf_embedLoop (bs : List Nat) (ps : List Pixel) :
    channelsOf (embedLoop bs ps) = writeBits bs (channelsOf ps) := by
  induction ps generalizing bs with
  | nil => cases bs <;> simp [embedLoop, channelsOf, writeBits]
  | cons p ps ih =>
    obtain ⟨r, g, b⟩ := p
    match bs with
    | [] => simp [embedLoop, embedLoop_nil, writeBits, channelsOf, writeBits_nil_left]
    | [rb] => simp [embedLoop, embedLoop_nil, writeBits, channelsOf, writeBits_nil_left]
    | [rb, gb] => simp [embedLoop, embedLoop_nil, writeBits, channelsOf, writeBits_nil_left]
    | rb :: gb :: bb :: rest => simp [embedLoop, writeBits, channelsOf, ih]

theorem bitsOf_eq_map (ps : List Pixel) :
    bitsOf ps = (channelsOf ps).map (fun c => c &&& 1) := by
  induction ps with
  | nil => rfl
  | cons p ps ih => obtain ⟨r, g, b⟩ := p; simp [bitsOf, channelsOf, ih]

theorem flatMap_lsb_eq_bitsOf (ps : List Pixel) :
    (ps.flatMap fun p => [p.1 &&& 1, p.2.1 &&& 1, p.2.2 &&& 1]) = bitsOf ps := by
  induction ps with
  | nil => rfl
  | cons p ps ih => rw [List.flatMap_cons, ih]; rfl

theorem length_channelsOf (ps : List Pixel) : (channelsOf ps).length = ps.length * 3 := by
  induction ps with
  | nil => rfl
  | cons p ps ih => simp [channelsOf, ih]; omega

theorem length_bitsOf (ps : List Pixel) : (bitsOf ps).length = ps.length * 3 := by
  rw [bitsOf_eq_map, List.length_map, length_channelsOf]

theorem length_writeBits (bs cs : List Nat) : (writeBits bs cs).length = cs.length := by
  induction cs generalizing bs with
  | nil => cases bs <;> rfl
  | cons c cs ih =>
    cases bs with
    | nil => rfl
    | cons b bs => simp [writeBits, ih]

theorem setLsb_and_one : ∀ c < 256, ∀ b < 2, ((c &&& 0xFE) ||| b) &&& 1 = b := by decide

theorem setLsb_le : ∀ c < 256, ∀ b < 2, ((c &&& 0xFE) ||| b) ≤ 255 := by decide

theorem setLsb_div_two : ∀ c < 256, ∀ b < 2, ((c &&& 0xFE) ||| b) / 2 = c / 2 := by decide

theorem map_lsb_writeBits (bs cs : List Nat)
    (hlen : bs.length ≤ cs.length)
    (hb : ∀ b ∈ bs, b < 2) (hc : ∀ c ∈ cs, c ≤ 255) :
    (writeBits bs cs).map (fun c => c &&& 1) =
      bs ++ (cs.drop bs.length).map (fun c => c &&& 1) := by
  induction cs generalizing bs with
  | nil =>
    cases bs with
    | nil => rfl
    | cons b bs => simp at hlen
  | cons c cs ih =>
    cases bs with
    | nil => simp [writeBits_nil_left]
    | cons b bs =>
      have hc' : c < 256 := Nat.lt_succ_of_le (hc c (by simp))
      have hb' : b < 2 := hb b (by simp)
      simp only [writeBits, List.map_cons, List.length_cons, List.drop_succ_cons]
      rw [setLsb_and_one c hc' b hb']
      rw [ih bs (by simpa using hlen) (fun x hx => hb x (by simp [hx]))
            (fun x hx => hc x (by simp [hx]))]
      simp

/-! ### The byte/bit codec round trip -/

theorem to_bits_nil : to_bits [] = [] := rfl

theorem to_bits_cons (b : Nat) (bs : List Nat) :
    to_bits (b :: bs) = byteToBits b ++ to_bits bs := by
  simp [to_bits]

theorem to_bits_append (xs ys : List Nat) :
    to_bits (xs ++ ys) = to_bits xs ++ to_bits ys := by
  simp [to_bits]

theorem length_byteToBits (b : Nat) : (byteToBits b).length = 8 := rfl

theorem length_to_bits (bs : List Nat) : (to_bits bs).length = 8 * bs.length := by
  induction bs with
  | nil => rfl
  | cons b bs ih => rw [to_bits_cons]; simp [ih, length_byteToBits]; omega

theorem byteToBits_lt_two (b : Nat) : ∀ x ∈ byteToBits b, x < 2 := by
  intro x hx
  simp [byteToBits] at hx
  rcases hx with h | h | h | h | h | h | h | h <;> omega

theorem to_bits_lt_two (bs : List Nat) : ∀ x ∈ to_bits bs, x < 2 := by
  intro x hx
  induction bs with
  | nil => simp [to_bits] at hx
  | cons b bs ih =>
    rw [to_bits_cons, List.mem_append] at hx
    rcases hx with h | h
    · exact byteToBits_lt_two b x h
    · exact ih h

theorem bitsToBytesGo_byte (b : Nat) (hb : b < 256) (rest : List Nat) :
    bitsToBytesGo (byteToBits b ++ rest) 0 0 = b :: bitsToBytesGo rest 0 0 := by
  have all : ∀ x, x < 256 →
      ((((((((x >>> 7 % 2) <<< 1 ||| x >>> 6 % 2) <<< 1 ||| x >>> 5 % 2) <<< 1 |||
        x >>> 4 % 2) <<< 1 ||| x >>> 3 % 2) <<< 1 ||| x >>> 2 % 2) <<< 1 |||
        x >>> 1 % 2) <<< 1 ||| x % 2) = x := by decide
  simp [byteToBits, bitsToBytesGo]
  exact all b hb

theorem bits_to_bytes_to_bits (bs : List Nat) (h : ∀ b ∈ bs, b < 256) :
    bits_to_bytes (to_bits bs) = bs := by
  induction bs with
  | nil => rfl
  | cons b bs ih =>
    rw [to_bits_cons]
    unfold bits_to_bytes
    rw [bitsToBytesGo_byte b (h b (by simp))]
    have := ih (fun x hx => h x (by simp [hx]))
    unfold bits_to_bytes at this
    rw [this]

theorem unpack_length_lengthDigits (n : Nat) (hn : n ≤ 0xFFFFFFFF) :
    unpack_length (lengthDigits n) = .ok n := by
  simp [unpack_length, lengthDigits]
  omega

theorem lengthDigits_lt (n : Nat) : ∀ b ∈ lengthDigits n, b < 256 := by
  intro b hb
  simp [lengthDigits] at hb
  rcases hb with h | h | h | h <;> omega

/-! ### UTF-8 round trip -/

theorem char_toNat_valid (c : Char) :
    c.toNat < 0xD800 ∨ (0xE000 ≤ c.toNat ∧ c.toNat < 0x110000) := by
  have h := c.valid
  simp only [UInt32.isValidChar, Nat.isValidChar, Char.toNat] at h ⊢
  exact h

theorem utf8EncodeChar_lt (c : Char) : ∀ x ∈ utf8EncodeChar c, x < 256 := by
  intro x hx
  have hv := char_toNat_valid c
  simp only [utf8EncodeChar] at hx
  split at hx
  · simp at hx; omega
  · split at hx
    · simp at hx; rcases hx with h | h <;> omega
    · split at hx
      · simp at hx; rcases hx with h | h | h <;> omega
      · simp at hx; rcases hx with h | h | h | h <;> omega

theorem utf8Decode_one (b0 : Nat) (rest : List Nat) (h0 : b0 < 0x80) :
    utf8DecodeReplace (b0 :: rest) = Char.ofNat b0 :: utf8DecodeReplace rest := by
  rw [utf8DecodeReplace.eq_def]
  simp only []
  rw [if_pos h0]

theorem utf8Decode_two (b0 b1 : Nat) (rest : List Nat) (h0 : 0xC2 ≤ b0) (h0' : b0 < 0xE0)
    (h1 : 0x80 ≤ b1) (h1' : b1 < 0xC0) :
    utf8DecodeReplace (b0 :: b1 :: rest) =
      Char.ofNat ((b0 - 0xC0) * 64 + (b1 - 0x80)) :: utf8DecodeReplace rest := by
  rw [utf8DecodeReplace.eq_def]
  simp only []
  rw [if_neg (by omega), if_neg (by omega), if_pos (by omega)]
  rw [if_pos (by omega)]

theorem utf8Decode_three (b0 b1 b2 : Nat) (rest : List Nat)
    (h0 : 0xE0 ≤ b0) (h0' : b0 < 0xF0)
    (h1 : 0x80 ≤ b1) (h1' : b1 < 0xC0)
    (hE0 : ¬(b0 = 0xE0 ∧ b1 < 0xA0)) (hED : ¬(b0 = 0xED ∧ 0xA0 ≤ b1))
    (h2 : 0x80 ≤ b2) (h2' : b2 < 0xC0) :
    utf8DecodeReplace (b0 :: b1 :: b2 :: rest) =
      Char.ofNat ((b0 - 0xE0) * 4096 + (b1 - 0x80) * 64 + (b2 - 0x80)) ::
        utf8DecodeReplace rest := by
  rw [utf8DecodeReplace.eq_def]
  simp only []
  rw [if_neg (by omega), if_neg (by omega), if_neg (by omega), if_pos (by omega)]
  rw [if_pos (by exact ⟨⟨h1, h1'⟩, hE0, hED⟩)]
  rw [if_pos (by omega)]

theorem utf8Decode_four (b0 b1 b2 b3 : Nat) (rest : List Nat)
    (h0 : 0xF0 ≤ b0) (h0' : b0 < 0xF5)
    (h1 : 0x80 ≤ b1) (h1' : b1 < 0xC0)
    (hF0 : ¬(b0 = 0xF0 ∧ b1 < 0x90)) (hF4 : ¬(b0 = 0xF4 ∧ 0x90 ≤ b1))
    (h2 : 0x80 ≤ b2) (h2' : b2 < 0xC0)
    (h3 : 0x80 ≤ b3) (h3' : b3 < 0xC0) :
    utf8DecodeReplace (b0 :: b1 :: b2 :: b3 :: rest) =
      Char.ofNat ((b0 - 0xF0) * 262144 + (b1 - 0x80) * 4096 +
        (b2 - 0x80) * 64 + (b3 - 0x80)) :: utf8DecodeReplace rest := by
  rw [utf8DecodeReplace.eq_def]
  simp only []
  rw [if_neg (by omega), if_neg (by omega), if_neg (by omega), if_neg (by omega),
      if_pos (by omega)]
  rw [if_pos (by exact ⟨⟨h1, h1'⟩, hF0, hF4⟩)]
  rw [if_pos (by omega)]
  rw [if_pos (by omega)]

theorem utf8DecodeReplace_encodeChar (c : Char) (rest : List Nat) :
    utf8DecodeReplace (utf8EncodeChar c ++ rest) = c :: utf8DecodeReplace rest := by
  have hv := char_toNat_valid c
  by_cases h1 : c.toNat < 0x80
  · rw [show utf8EncodeChar c = [c.toNat] from by simp [utf8EncodeChar, h1]]
    rw [List.cons_append, List.nil_append, utf8Decode_one _ _ h1, Char.ofNat_toNat]
  · by_cases h2 : c.toNat < 0x800
    · rw [show utf8EncodeChar c = [0xC0 + c.toNat / 64, 0x80 + c.toNat % 64] from by
        simp [utf8EncodeChar, h1, h2]]
      simp only [List.cons_append, List.nil_append]
      rw [utf8Decode_two _ _ _ (by omega) (by omega) (by omega) (by omega)]
      congr 1
      have he : (0xC0 + c.toNat / 64 - 0xC0) * 64 + (0x80 + c.toNat % 64 - 0x80)
          = c.toNat := by omega
      rw [he, Char.ofNat_toNat]
    · by_cases h3 : c.toNat < 0x10000
      · rw [show utf8EncodeChar c =
            [0xE0 + c.toNat / 4096, 0x80 + c.toNat / 64 % 64, 0x80 + c.toNat % 64] from by
          simp [utf8EncodeChar, h1, h2, h3]]
        simp only [List.cons_append, List.nil_append]
        rw [utf8Decode_three _ _ _ _ (by omega) (by omega) (by omega) (by omega)
          (by omega) (by omega) (by omega) (by omega)]
        congr 1
        have he : (0xE0 + c.toNat / 4096 - 0xE0) * 4096 +
            (0x80 + c.toNat / 64 % 64 - 0x80) * 64 + (0x80 + c.toNat % 64 - 0x80)
            = c.toNat := by omega
        rw [he, Char.ofNat_toNat]
      · rw [show utf8EncodeChar c =
            [0xF0 + c.toNat / 262144, 0x80 + c.toNat / 4096 % 64,
             0x80 + c.toNat / 64 % 64, 0x80 + c.toNat % 64] from by
          simp [utf8EncodeChar, h1, h2, h3]]
        simp only [List.cons_append, List.nil_append]
        rw [utf8Decode_four _ _ _ _ _ (by omega) (by omega) (by omega) (by omega)
          (by omega) (by omega) (by omega) (by omega) (by omega) (by omega)]
        congr 1
        have he : (0xF0 + c.toNat / 262144 - 0xF0) * 262144 +
            (0x80 + c.toNat / 4096 % 64 - 0x80) * 4096 +
            (0x80 + c.toNat / 64 % 64 - 0x80) * 64 + (0x80 + c.toNat % 64 - 0x80)
            = c.toNat := by omega
        rw [he, Char.ofNat_toNat]

theorem utf8Encode_nil : utf8Encode [] = [] := rfl

theorem utf8Encode_cons (c : Char) (cs : List Char) :
    utf8Encode (c :: cs) = utf8EncodeChar c ++ utf8Encode cs := by
  simp [utf8Encode]

theorem utf8DecodeReplace_utf8Encode (msg : List Char) :
    utf8DecodeReplace (utf8Encode msg) = msg := by
  induction msg with
  | nil => rw [utf8Encode_nil, utf8DecodeReplace.eq_def]
  | cons c cs ih =>
    rw [utf8Encode_cons, utf8DecodeReplace_encodeChar, ih]

theorem utf8Encode_lt (msg : List Char) : ∀ x ∈ utf8Encode msg, x < 256 := by
  intro x hx
  induction msg with
  | nil => simp [utf8Encode] at hx
  | cons c cs ih =>
    rw [utf8Encode_cons, List.mem_append] at hx
    rcases hx with h | h
    · exact utf8EncodeChar_lt c x h
    · exact ih h

/-! ### Success-path characterizations of embed and extract -/

theorem embed_ok_eq (pixels : List Pixel) (msg : List Char)
    (hlen : (utf8Encode msg).length ≤ 0xFFFFFFFF)
    (hcap : 32 + 8 * (utf8Encode msg).length ≤ pixels.length * 3) :
    embed_message pixels msg =
      .ok (embedLoop (to_bits (lengthDigits (utf8Encode msg).length ++ utf8Encode msg))
        pixels) := by
  have hpack : pack_length (utf8Encode msg).length =
      .ok (lengthDigits (utf8Encode msg).length) := by
    simp only [pack_length]
    rw [if_neg (by omega)]
  have hlenbits :
      (to_bits (lengthDigits (utf8Encode msg).length ++ utf8Encode msg)).length
      = 32 + 8 * (utf8Encode msg).length := by
    rw [length_to_bits]
    simp [lengthDigits]
    omega
  simp only [embed_message, hpack, bind, Except.bind]
  rw [if_neg (by omega)]

theorem embed_error_of_len (pixels : List Pixel) (msg : List Char)
    (h : (utf8Encode msg).length > 0xFFFFFFFF) :
    embed_message pixels msg = .error .lengthOutOfRange := by
  have hpack : pack_length (utf8Encode msg).length = .error .lengthOutOfRange := by
    simp only [pack_length]
    rw [if_pos (by omega)]
  simp only [embed_message, hpack, bind, Except.bind]

theorem embed_capacity_error (pixels : List Pixel) (msg : List Char)
    (hlen : (utf8Encode msg).length ≤ 0xFFFFFFFF)
    (hcap : pixels.length * 3 < 32 + 8 * (utf8Encode msg).length) :
    embed_message pixels msg =
      .error (.capacityError (pixels.length * 3 / 8)
        ((32 + 8 * (utf8Encode msg).length) / 8)) := by
  have hpack : pack_length (utf8Encode msg).length =
      .ok (lengthDigits (utf8Encode msg).length) := by
    simp only [pack_length]
    rw [if_neg (by omega)]
  have hlenbits :
      (to_bits (lengthDigits (utf8Encode msg).length ++ utf8Encode msg)).length
      = 32 + 8 * (utf8Encode msg).length := by
    rw [length_to_bits]
    simp [lengthDigits]
    omega
  simp only [embed_message, hpack, bind, Except.bind]
  rw [if_pos (by omega), hlenbits]

theorem extract_embed_ok (pixels : List Pixel) (msg : List Char)
    (hrange : ∀ c ∈ channelsOf pixels, c ≤ 255)
    (hlen : (utf8Encode msg).length ≤ 0xFFFFFFFF)
    (hcap : 32 + 8 * (utf8Encode msg).length ≤ pixels.length * 3) :
    (embed_message pixels msg).bind extract_message = .ok msg := by
  rw [embed_ok_eq pixels msg hlen hcap]
  show extract_message _ = _
  have hpblen :
      (to_bits (lengthDigits (utf8Encode msg).length ++ utf8Encode msg)).length
      = 32 + 8 * (utf8Encode msg).length := by
    rw [length_to_bits]; simp [lengthDigits]; omega
  have hbits : bitsOf (embedLoop
        (to_bits (lengthDigits (utf8Encode msg).length ++ utf8Encode msg)) pixels)
      = to_bits (lengthDigits (utf8Encode msg).length ++ utf8Encode msg) ++
        ((channelsOf pixels).drop (32 + 8 * (utf8Encode msg).length)).map
          (fun c => c &&& 1) := by
    rw [bitsOf_eq_map, channelsOf_embedLoop, map_lsb_writeBits]
    · rw [hpblen]
    · rw [hpblen, length_channelsOf]; omega
    · exact to_bits_lt_two _
    · exact hrange
  simp only [extract_message, flatMap_lsb_eq_bitsOf, hbits]
  rw [to_bits_append]
  have h32 : (to_bits (lengthDigits (utf8Encode msg).length)).length = 32 := by
    rw [length_to_bits]; rfl
  rw [List.append_assoc, List.take_left' h32, List.drop_left' h32]
  rw [bits_to_bytes_to_bits _ (lengthDigits_lt _), unpack_length_lengthDigits _ hlen]
  simp only [bind, Except.bind]
  have hmlen : (to_bits (utf8Encode msg)).length = 8 * (utf8Encode msg).length :=
    length_to_bits _
  rw [List.take_left' (by rw [hmlen]; ring)]
  rw [if_neg (by rw [hmlen]; omega)]
  rw [bits_to_bytes_to_bits _ (utf8Encode_lt msg), utf8DecodeReplace_utf8Encode]

/-! ### Byte-grouping structure of the bit-to-byte conversion -/

theorem bitsToBytesGo_short (bs : List Nat) : ∀ cur cnt, bs.length + cnt < 8 →
    bitsToBytesGo bs cur cnt = [] := by
  induction bs with
  | nil => intro cur cnt h; rfl
  | cons b bs ih =>
    intro cur cnt h
    simp only [bitsToBytesGo]
    rw [if_neg (by simp at h; omega)]
    exact ih _ _ (by simp at h ⊢; omega)

theorem length_bitsToBytesGo (bs : List Nat) : ∀ cur cnt, cnt < 8 →
    (bitsToBytesGo bs cur cnt).length = (bs.length + cnt) / 8 := by
  induction bs with
  | nil => intro cur cnt h; simp [bitsToBytesGo]; omega
  | cons b bs ih =>
    intro cur cnt h
    simp only [bitsToBytesGo]
    by_cases h8 : cnt + 1 = 8
    · rw [if_pos h8]
      simp [ih _ 0 (by omega)]
      omega
    · rw [if_neg h8]
      rw [ih _ (cnt + 1) (by omega)]
      simp
      omega

theorem length_bits_to_bytes (bs : List Nat) :
    (bits_to_bytes bs).length = bs.length / 8 := by
  unfold bits_to_bytes
  rw [length_bitsToBytesGo bs 0 0 (by omega)]
  omega

theorem bitsToBytesGo_chunk (c0 c1 c2 c3 c4 c5 c6 c7 : Nat) (rest : List Nat) :
    bitsToBytesGo (c0 :: c1 :: c2 :: c3 :: c4 :: c5 :: c6 :: c7 :: rest) 0 0 =
      ([c0, c1, c2, c3, c4, c5, c6, c7].foldl (fun a b => a <<< 1 ||| b) 0) ::
        bitsToBytesGo rest 0 0 := by
  simp [bitsToBytesGo]

/-! ### Convenience form of the extract engine -/

theorem extract_spec (pixels : List Pixel)
    (h32 : 32 ≤ (bitsOf pixels).length) :
    extract_message pixels =
      (if (bitsOf pixels).length - 32 <
          ((bits_to_bytes ((bitsOf pixels).take 32)).foldl (fun acc b => acc * 256 + b) 0) * 8
       then .error .incompleteMessage
       else .ok (utf8DecodeReplace (bits_to_bytes (((bitsOf pixels).drop 32).take
         (((bits_to_bytes ((bitsOf pixels).take 32)).foldl
            (fun acc b => acc * 256 + b) 0) * 8))))) := by
  have hunpack : unpack_length (bits_to_bytes ((bitsOf pixels).take 32)) =
      .ok ((bits_to_bytes ((bitsOf pixels).take 32)).foldl
        (fun acc b => acc * 256 + b) 0) := by
    simp only [unpack_length]
    rw [if_neg (by
      rw [length_bits_to_bytes, List.length_take]
      omega)]
  simp only [extract_message, flatMap_lsb_eq_bitsOf, hunpack, bind, Except.bind]
  have hminlen : (((bitsOf pixels).drop 32).take
      (((bits_to_bytes ((bitsOf pixels).take 32)).foldl
        (fun acc b => acc * 256 + b) 0) * 8)).length =
      min (((bits_to_bytes ((bitsOf pixels).take 32)).foldl
        (fun acc b => acc * 256 + b) 0) * 8) ((bitsOf pixels).length - 32) := by
    rw [List.length_take, List.length_drop]
  rw [hminlen]
  by_cases hcond : (bitsOf pixels).length - 32 <
      ((bits_to_bytes ((bitsOf pixels).take 32)).foldl (fun acc b => acc * 256 + b) 0) * 8
  · rw [if_pos (by omega), if_pos hcond]
  · rw [if_neg (by omega), if_neg hcond]

/-! ### Index-wise view of the write loop -/

theorem getD_writeBits_lt (cs : List Nat) : ∀ (bs : List Nat) (i : Nat),
    i < bs.length → i < cs.length →
    (writeBits bs cs).getD i 0 = ((cs.getD i 0) &&& 0xFE) ||| bs.getD i 0 := by
  induction cs with
  | nil => intro bs i _ h; simp at h
  | cons c cs ih =>
    intro bs i hib hic
    cases bs with
    | nil => simp at hib
    | cons b bs =>
      cases i with
      | zero => rfl
      | succ i =>
        simp only [writeBits, List.getD_cons_succ]
        exact ih bs i (by simpa using hib) (by simpa using hic)

theorem getD_writeBits_ge (cs : List Nat) : ∀ (bs : List Nat) (i : Nat),
    bs.length ≤ i → (writeBits bs cs).getD i 0 = cs.getD i 0 := by
  induction cs with
  | nil => intro bs i _; cases bs <;> rfl
  | cons c cs ih =>
    intro bs i hi
    cases bs with
    | nil => rw [writeBits_nil_left]
    | cons b bs =>
      cases i with
      | zero => simp at hi
      | succ i =>
        simp only [writeBits, List.getD_cons_succ]
        exact ih bs i (by simpa using hi)

theorem mem_writeBits_le (cs : List Nat) : ∀ bs : List Nat,
    (∀ b ∈ bs, b < 2) → (∀ c ∈ cs, c ≤ 255) →
    ∀ x ∈ writeBits bs cs, x ≤ 255 := by
  induction cs with
  | nil => intro bs _ _ x hx; cases bs <;> simp [writeBits] at hx
  | cons c cs ih =>
    intro bs hb hc x hx
    cases bs with
    | nil => rw [writeBits_nil_left] at hx; exact hc x hx
    | cons b bs =>
      simp only [writeBits, List.mem_cons] at hx
      rcases hx with h | h
      · subst h
        exact setLsb_le c (Nat.lt_succ_of_le (hc c (by simp))) b (hb b (by simp))
      · exact ih bs (fun y hy => hb y (by simp [hy])) (fun y hy => hc y (by simp [hy])) x h

theorem bits_to_bytes_chunks_aux : ∀ (n : Nat) (bits : List Nat), bits.length = n →
    bits_to_bytes bits = (List.range (bits.length / 8)).map
      (fun k => ((bits.drop (8 * k)).take 8).foldl (fun a b => a <<< 1 ||| b) 0) := by
  intro n
  induction n using Nat.strong_induction_on with
  | _ n ih =>
    intro bits hlen
    by_cases hsmall : bits.length < 8
    · rw [show bits.length / 8 = 0 by omega]
      unfold bits_to_bytes
      rw [bitsToBytesGo_short bits 0 0 (by omega)]
      rfl
    · rcases bits with _ | ⟨c0, bits⟩; · simp at hsmall
      rcases bits with _ | ⟨c1, bits⟩; · simp at hsmall
      rcases bits with _ | ⟨c2, bits⟩; · simp at hsmall
      rcases bits with _ | ⟨c3, bits⟩; · simp at hsmall
      rcases bits with _ | ⟨c4, bits⟩; · simp at hsmall
      rcases bits with _ | ⟨c5, bits⟩; · simp at hsmall
      rcases bits with _ | ⟨c6, bits⟩; · simp at hsmall
      rcases bits with _ | ⟨c7, rest⟩; · simp at hsmall
      unfold bits_to_bytes
      rw [bitsToBytesGo_chunk]
      have hrec := ih rest.length (by simp at hlen; omega) rest rfl
      unfold bits_to_bytes at hrec
      rw [hrec]
      have hL : (c0 :: c1 :: c2 :: c3 :: c4 :: c5 :: c6 :: c7 :: rest).length / 8
          = rest.length / 8 + 1 := by simp; omega
      rw [hL, List.range_succ_eq_map]
      simp only [List.map_cons, List.map_map]
      rfl

/-! ### The state-passing embed loop agrees with the pure one -/

theorem stepOnePixel_input (s : EmbedSt) (p : Pixel) :
    (stepOnePixel s p).input = s.input := by
  obtain ⟨inp, bits, out⟩ := s
  obtain ⟨r, g, b⟩ := p
  rcases bits with _ | ⟨rb, _ | ⟨gb, _ | ⟨bb, rest⟩⟩⟩ <;> rfl

theorem embedLoopSt_input (ps : List Pixel) : ∀ s : EmbedSt,
    (embedLoopSt s ps).input = s.input := by
  induction ps with
  | nil => intro s; rfl
  | cons p ps ih =>
    intro s
    show (embedLoopSt (stepOnePixel s p) ps).input = s.input
    rw [ih, stepOnePixel_input]

theorem embedLoopSt_out (ps : List Pixel) : ∀ s : EmbedSt,
    (embedLoopSt s ps).out = s.out ++ embedLoop s.bits ps := by
  induction ps with
  | nil => intro s; simp [embedLoopSt, embedLoop]
  | cons p ps ih =>
    intro s
    obtain ⟨inp, bits, out⟩ := s
    obtain ⟨r, g, b⟩ := p
    show (embedLoopSt (stepOnePixel ⟨inp, bits, out⟩ (r, g, b)) ps).out = _
    rcases bits with _ | ⟨rb, _ | ⟨gb, _ | ⟨bb, rest⟩⟩⟩ <;>
      simp [stepOnePixel, ih, embedLoop, embedLoop_nil]

/-! ### A message longer than the 32-bit header allows -/

/-- Message of 2^32 copies of the letter a: its UTF-8 payload is one byte
per character, so its length does not fit in the 32-bit length header. -/
def hugeMsg : List Char := List.replicate 4294967296 (Char.ofNat 97)

/-- Pixel sequence large enough (3 * 2^35 channels) to hold the frame of
`hugeMsg`, with every channel value 0. -/
def hugePixels : List Pixel := List.replicate 34359738368 ((0 : Nat), (0 : Nat), (0 : Nat))

theorem utf8EncodeChar_a : utf8EncodeChar (Char.ofNat 97) = [97] := by decide

theorem utf8Encode_replicate_a (n : Nat) :
    utf8Encode (List.replicate n (Char.ofNat 97)) = List.replicate n 97 := by
  induction n with
  | zero => rfl
  | succ n ih =>
    rw [List.replicate_succ, utf8Encode_cons, utf8EncodeChar_a, ih, List.replicate_succ]
    rfl

theorem length_utf8Encode_hugeMsg : (utf8Encode hugeMsg).length = 4294967296 := by
  rw [hugeMsg, utf8Encode_replicate_a, List.length_replicate]

theorem channelsOf_replicate_zero (n : Nat) :
    channelsOf (List.replicate n ((0 : Nat), (0 : Nat), (0 : Nat))) =
      List.replicate (3 * n) 0 := by
  induction n with
  | zero => rfl
  | succ n ih =>
    rw [List.replicate_succ, channelsOf, ih,
        show 3 * (n + 1) = (3 * n) + 1 + 1 + 1 by ring]
    simp [List.replicate_succ]

theorem embed_hugeMsg_error (pixels : List Pixel) :
    embed_message pixels hugeMsg = .error .lengthOutOfRange := by
  apply embed_error_of_len
  rw [length_utf8Encode_hugeMsg]
  omega

/-- Decidable equality of call results, used to evaluate the model at
concrete inputs. -/
instance {ε α : Type} [DecidableEq ε] [DecidableEq α] : DecidableEq (Except ε α) :=
  fun x y =>
    match x, y with
    | .ok a, .ok b =>
        if h : a = b then isTrue (by rw [h])
        else isFalse (by intro hh; cases hh; exact h rfl)
    | .error a, .error b =>
        if h : a = b then isTrue (by rw [h])
        else isFalse (by intro hh; cases hh; exact h rfl)
    | .ok _, .error _ => isFalse (by intro h; cases h)
    | .error _, .ok _ => isFalse (by intro h; cases h)

/-! ## The claims -/

/-- C1, counterexample to the claim as stated: a message of 2^32 characters
whose UTF-8 payload does not fit the 32-bit length header, over a channel
sequence that satisfies the claim's capacity hypothesis (and whose entries
all lie in 0..255), makes `embed` fail with the length-range error, so the
round trip does not return the message. -/
theorem C1_counterexample :
    (∀ c ∈ channelsOf hugePixels, c ≤ 255) ∧
    32 + 8 * (utf8Encode hugeMsg).length ≤ hugePixels.length * 3 ∧
    (embed_message hugePixels hugeMsg).bind extract_message ≠ .ok hugeMsg := by
  refine ⟨?_, ?_, ?_⟩
  · rw [hugePixels, channelsOf_replicate_zero]
    intro c hc
    rw [List.mem_replicate] at hc
    omega
  · rw [length_utf8Encode_hugeMsg, hugePixels, List.length_replicate]
    omega
  · rw [embed_hugeMsg_error]
    simp [Except.bind]

/-- C1 (amended with the extra hypothesis that the UTF-8 payload length
fits the 32-bit header): for every channel sequence with entries in 0..255
whose capacity (one bit per channel entry) is at least 32 + 8 times the
UTF-8 byte length of the message, extracting from the result of embedding
returns exactly the message. -/
theorem C1_round_trip (pixels : List Pixel) (msg : List Char)
    (hrange : ∀ c ∈ channelsOf pixels, c ≤ 255)
    (hlen : (utf8Encode msg).length < 4294967296)
    (hcap : 32 + 8 * (utf8Encode msg).length ≤ pixels.length * 3) :
    (embed_message pixels msg).bind extract_message = .ok msg :=
  extract_embed_ok pixels msg hrange (by omega) hcap

/-- C1 witness: the round trip at a concrete 16-pixel image and the
two-character message "hi". -/
theorem C1_round_trip_witness :
    (∀ c ∈ channelsOf (List.replicate 16 ((7 : Nat), (200 : Nat), (13 : Nat))), c ≤ 255) ∧
    (utf8Encode [Char.ofNat 104, Char.ofNat 105]).length < 4294967296 ∧
    32 + 8 * (utf8Encode [Char.ofNat 104, Char.ofNat 105]).length ≤
      (List.replicate 16 ((7 : Nat), (200 : Nat), (13 : Nat))).length * 3 ∧
    (embed_message (List.replicate 16 ((7 : Nat), (200 : Nat), (13 : Nat)))
        [Char.ofNat 104, Char.ofNat 105]).bind extract_message =
      .ok [Char.ofNat 104, Char.ofNat 105] :=
  ⟨by decide, by decide, by decide,
   C1_round_trip _ _ (by decide) (by decide) (by decide)⟩

/-- C2, counterexample to the claim as stated: with a message whose UTF-8
payload exceeds the 32-bit header range and an empty channel sequence, the
frame bit count exceeds the number of channel entries, yet `embed` fails
with the length-range error instead of the capacity error the claim
mandates. -/
theorem C2_counterexample :
    ([] : List Pixel).length * 3 < 32 + 8 * (utf8Encode hugeMsg).length ∧
    embed_message [] hugeMsg = .error .lengthOutOfRange ∧
    embed_message [] hugeMsg ≠
      .error (.capacityError (([] : List Pixel).length * 3 / 8)
        ((32 + 8 * (utf8Encode hugeMsg).length) / 8)) := by
  refine ⟨?_, embed_hugeMsg_error [], ?_⟩
  · rw [length_utf8Encode_hugeMsg]
    simp
  · rw [embed_hugeMsg_error]
    simp

/-- C2 (amended with the extra hypothesis that the UTF-8 payload length
fits the 32-bit header): `embed` fails with the capacity error exactly when
the frame bit count (32 header bits plus 8 per payload byte) exceeds the
number of channel entries, and the error then reports the capacity as
`channels.length / 8` bytes and the required size as the frame bit count
divided by 8 (exact, hence equal to its rounding up, since the frame bit
count is a multiple of 8). -/
theorem C2_capacity (pixels : List Pixel) (msg : List Char)
    (hlen : (utf8Encode msg).length ≤ 0xFFFFFFFF) :
    (pixels.length * 3 < 32 + 8 * (utf8Encode msg).length →
      embed_message pixels msg =
        .error (.capacityError (pixels.length * 3 / 8)
          ((32 + 8 * (utf8Encode msg).length) / 8))) ∧
    (32 + 8 * (utf8Encode msg).length ≤ pixels.length * 3 →
      ∀ cb nb, embed_message pixels msg ≠ .error (.capacityError cb nb)) := by
  constructor
  · intro h
    exact embed_capacity_error pixels msg hlen h
  · intro h cb nb hne
    rw [embed_ok_eq pixels msg hlen h] at hne
    simp at hne

/-- C2 witness: the claim's concrete scenario A, a 2-by-2 image (12 channel
entries) embedding the empty message, fails with capacity 1 byte and
needed 4 bytes. -/
theorem C2_capacity_witness :
    (utf8Encode []).length ≤ 0xFFFFFFFF ∧
    embed_message (List.replicate 4 ((0 : Nat), (0 : Nat), (0 : Nat))) [] =
      .error (.capacityError 1 4) := by
  refine ⟨by decide, ?_⟩
  have h := (C2_capacity (List.replicate 4 ((0 : Nat), (0 : Nat), (0 : Nat))) []
    (by decide)).1 (by decide)
  simpa using h

/-- C3: in the state-passing rendering of `embed_message`, the field
holding the caller's pixel list is returned exactly as it was passed, on
success and on every failure alike, the accumulated output is empty
whenever the call fails (no partial output), and the call's result agrees
with the pure `embed_message` — the translation never writes to the
caller's data. -/
theorem C3_atomicity (pixels : List Pixel) (msg : List Char) :
    (embed_message_st pixels msg).1.input = pixels ∧
    (embed_message_st pixels msg).1.out =
      (match (embed_message_st pixels msg).2 with
        | .error _ => ([] : List Pixel)
        | .ok out => out) ∧
    (embed_message_st pixels msg).2 = embed_message pixels msg := by
  cases hp : pack_length (utf8Encode msg).length with
  | error e =>
    refine ⟨?_, ?_, ?_⟩ <;>
      simp [embed_message_st, hp, embed_message, bind, Except.bind]
  | ok header =>
    by_cases hcap : (to_bits (header ++ utf8Encode msg)).length > pixels.length * 3
    · refine ⟨?_, ?_, ?_⟩ <;>
        simp [embed_message_st, hp, embed_message, bind, Except.bind, hcap]
    · have hout : (embedLoopSt
          { input := pixels, bits := to_bits (header ++ utf8Encode msg), out := [] }
          pixels).out = embedLoop (to_bits (header ++ utf8Encode msg)) pixels := by
        rw [embedLoopSt_out]
        rfl
      refine ⟨?_, ?_, ?_⟩
      · simp only [embed_message_st, hp]
        rw [if_neg hcap]
        exact embedLoopSt_input pixels _
      · simp only [embed_message_st, hp]
        rw [if_neg hcap]
      · simp only [embed_message_st, hp, embed_message, bind, Except.bind]
        rw [if_neg hcap, if_neg hcap, hout]

/-- C4: after a successful embed on a channel sequence with entries in
0..255, the output has the same number of channel entries; every entry at
an index below the frame bit count equals `(input & 0xFE) | bit` — hence
agrees with the input above the least-significant bit — and every entry at
or beyond the frame bit count is identical to the input entry. -/
theorem C4_frame_effect (pixels : List Pixel) (msg : List Char) (out : List Pixel)
    (hrange : ∀ c ∈ channelsOf pixels, c ≤ 255)
    (hok : embed_message pixels msg = .ok out) :
    (channelsOf out).length = (channelsOf pixels).length ∧
    (∀ i, i < 32 + 8 * (utf8Encode msg).length →
      (channelsOf out).getD i 0 =
        (((channelsOf pixels).getD i 0) &&& 0xFE) |||
          ((to_bits (lengthDigits (utf8Encode msg).length ++ utf8Encode msg)).getD i 0) ∧
      (channelsOf out).getD i 0 / 2 = ((channelsOf pixels).getD i 0) / 2) ∧
    (∀ i, 32 + 8 * (utf8Encode msg).length ≤ i →
      (channelsOf out).getD i 0 = (channelsOf pixels).getD i 0) := by
  have hlen : (utf8Encode msg).length ≤ 0xFFFFFFFF := by
    by_contra h
    rw [embed_error_of_len pixels msg (by omega)] at hok
    simp at hok
  have hcap : 32 + 8 * (utf8Encode msg).length ≤ pixels.length * 3 := by
    by_contra h
    rw [embed_capacity_error pixels msg hlen (by omega)] at hok
    simp at hok
  have hout : out =
      embedLoop (to_bits (lengthDigits (utf8Encode msg).length ++ utf8Encode msg)) pixels := by
    rw [embed_ok_eq pixels msg hlen hcap] at hok
    injection hok with h
    exact h.symm
  have hpblen :
      (to_bits (lengthDigits (utf8Encode msg).length ++ utf8Encode msg)).length
      = 32 + 8 * (utf8Encode msg).length := by
    rw [length_to_bits]; simp [lengthDigits]; omega
  have hchan : channelsOf out =
      writeBits (to_bits (lengthDigits (utf8Encode msg).length ++ utf8Encode msg))
        (channelsOf pixels) := by
    rw [hout, channelsOf_embedLoop]
  have hcslen : (channelsOf pixels).length = pixels.length * 3 := length_channelsOf pixels
  refine ⟨?_, ?_, ?_⟩
  · rw [hchan, length_writeBits]
  · intro i hi
    have hic : i < (channelsOf pixels).length := by omega
    have hib : i <
        (to_bits (lengthDigits (utf8Encode msg).length ++ utf8Encode msg)).length := by
      omega
    have hform := getD_writeBits_lt (channelsOf pixels) _ i hib hic
    rw [hchan, hform]
    refine ⟨rfl, ?_⟩
    have hcval : (channelsOf pixels).getD i 0 ≤ 255 := by
      rw [List.getD_eq_getElem _ 0 hic]
      exact hrange _ (List.getElem_mem hic)
    have hbval :
        (to_bits (lengthDigits (utf8Encode msg).length ++ utf8Encode msg)).getD i 0 < 2 := by
      rw [List.getD_eq_getElem _ 0 hib]
      exact to_bits_lt_two _ _ (List.getElem_mem hib)
    exact setLsb_div_two _ (by omega) _ hbval
  · intro i hi
    rw [hchan, getD_writeBits_ge]
    omega

/-- C4 witness: a concrete 11-pixel image embedding the empty message; the
frame is the 32 zero header bits, so the first 32 channel entries have
their LSB cleared and the last entry is untouched. -/
theorem C4_frame_effect_witness :
    (∀ c ∈ channelsOf (List.replicate 11 ((9 : Nat), (9 : Nat), (9 : Nat))), c ≤ 255) ∧
    embed_message (List.replicate 11 ((9 : Nat), (9 : Nat), (9 : Nat))) [] =
      .ok (List.replicate 10 ((8 : Nat), (8 : Nat), (8 : Nat)) ++ [(8, 8, 9)]) ∧
    ((channelsOf (List.replicate 10 ((8 : Nat), (8 : Nat), (8 : Nat)) ++ [(8, 8, 9)])).length =
        (channelsOf (List.replicate 11 ((9 : Nat), (9 : Nat), (9 : Nat)))).length ∧
      (∀ i, i < 32 + 8 * (utf8Encode []).length →
        (channelsOf (List.replicate 10 ((8 : Nat), (8 : Nat), (8 : Nat)) ++ [(8, 8, 9)])).getD i 0 =
          (((channelsOf (List.replicate 11 ((9 : Nat), (9 : Nat), (9 : Nat)))).getD i 0) &&& 0xFE) |||
            ((to_bits (lengthDigits (utf8Encode []).length ++ utf8Encode [])).getD i 0) ∧
        (channelsOf (List.replicate 10 ((8 : Nat), (8 : Nat), (8 : Nat)) ++ [(8, 8, 9)])).getD i 0 / 2 =
          ((channelsOf (List.replicate 11 ((9 : Nat), (9 : Nat), (9 : Nat)))).getD i 0) / 2) ∧
      (∀ i, 32 + 8 * (utf8Encode []).length ≤ i →
        (channelsOf (List.replicate 10 ((8 : Nat), (8 : Nat), (8 : Nat)) ++ [(8, 8, 9)])).getD i 0 =
          (channelsOf (List.replicate 11 ((9 : Nat), (9 : Nat), (9 : Nat)))).getD i 0)) :=
  ⟨by decide, by decide,
   C4_frame_effect _ [] _ (by decide) (by decide)⟩

/-- C5, counterexample to the claim as stated: on a 1-pixel image (3
channel entries, fewer than 32), `extract` fails with the header decoder's
invalid-length-header error (the FormatError of the taxonomy), not with the
truncated-data error the claim names. -/
theorem C5_counterexample :
    extract_message [((0 : Nat), (0 : Nat), (0 : Nat))] = .error .invalidLengthHeader ∧
    StegoError.invalidLengthHeader ≠ StegoError.incompleteMessage := by
  exact ⟨by decide, by decide⟩

/-- C5 (amended): for every channel sequence with fewer than 32 entries,
`extract` fails — not via a dedicated truncation pre-check, but with the
invalid-length-header error raised by the length decoder when the fewer
than 32 LSBs assemble into fewer than 4 header bytes. -/
theorem C5_header_truncation (pixels : List Pixel)
    (h : pixels.length * 3 < 32) :
    extract_message pixels = .error .invalidLengthHeader := by
  have hblen : (bitsOf pixels).length = pixels.length * 3 := length_bitsOf pixels
  have htake : (bitsOf pixels).take 32 = bitsOf pixels :=
    List.take_of_length_le (by omega)
  have hun : unpack_length (bits_to_bytes ((bitsOf pixels).take 32)) =
      .error .invalidLengthHeader := by
    simp only [unpack_length]
    rw [if_pos (by rw [htake, length_bits_to_bytes]; omega)]
  simp only [extract_message, flatMap_lsb_eq_bitsOf, hun, bind, Except.bind]

/-- C5 witness: a concrete 2-pixel image (6 channel entries) on which
`extract` fails with the invalid-length-header error. -/
theorem C5_header_truncation_witness :
    ([((0 : Nat), (0 : Nat), (0 : Nat)), ((1 : Nat), (2 : Nat), (3 : Nat))] :
      List Pixel).length * 3 < 32 ∧
    extract_message [((0 : Nat), (0 : Nat), (0 : Nat)), ((1 : Nat), (2 : Nat), (3 : Nat))] =
      .error .invalidLengthHeader :=
  ⟨by decide, C5_header_truncation _ (by decide)⟩

/-- C6, counterexample to the claim's reporting clause: two truncated
images with different numbers of available message bits (1 versus 4, both
requiring 8) produce the very same data-free error value, so the error does
not report bits available versus bits required. -/
theorem C6_counterexample :
    extract_message (List.replicate 10 ((0 : Nat), (0 : Nat), (0 : Nat)) ++
        [((0 : Nat), (1 : Nat), (0 : Nat))]) = .error .incompleteMessage ∧
    extract_message (List.replicate 10 ((0 : Nat), (0 : Nat), (0 : Nat)) ++
        [((0 : Nat), (1 : Nat), (0 : Nat)), ((0 : Nat), (0 : Nat), (0 : Nat))]) =
      .error .incompleteMessage ∧
    (bitsOf (List.replicate 10 ((0 : Nat), (0 : Nat), (0 : Nat)) ++
        [((0 : Nat), (1 : Nat), (0 : Nat))])).length ≠
      (bitsOf (List.replicate 10 ((0 : Nat), (0 : Nat), (0 : Nat)) ++
        [((0 : Nat), (1 : Nat), (0 : Nat)), ((0 : Nat), (0 : Nat), (0 : Nat))])).length := by
  exact ⟨by decide, by decide, by decide⟩

/-- C6 (amended, without the reporting clause: the truncation error is a
fixed message carrying no numbers): for a channel sequence of at least 32
entries whose first 32 LSBs decode to the length `L`, if fewer than `L * 8`
bits remain then `extract` fails with the truncated-data error and returns
no partial message; otherwise it returns the message decoded from exactly
the next `L * 8` LSBs. -/
theorem C6_extract_completeness (pixels : List Pixel) (L : Nat)
    (h32 : 32 ≤ (bitsOf pixels).length)
    (hL : L = (bits_to_bytes ((bitsOf pixels).take 32)).foldl
      (fun acc b => acc * 256 + b) 0) :
    ((bitsOf pixels).length - 32 < L * 8 →
      extract_message pixels = .error .incompleteMessage) ∧
    (L * 8 ≤ (bitsOf pixels).length - 32 →
      extract_message pixels =
        .ok (utf8DecodeReplace (bits_to_bytes
          (((bitsOf pixels).drop 32).take (L * 8))))) := by
  subst hL
  rw [extract_spec pixels h32]
  constructor
  · intro h
    rw [if_pos h]
  · intro h
    rw [if_neg (by omega)]

/-- C6 witness: a concrete 11-pixel image whose header declares 1 payload
byte while only 1 bit remains: `extract` fails with the truncated-data
error. -/
theorem C6_extract_completeness_witness :
    32 ≤ (bitsOf (List.replicate 10 ((2 : Nat), (2 : Nat), (2 : Nat)) ++
      [((0 : Nat), (1 : Nat), (0 : Nat))])).length ∧
    extract_message (List.replicate 10 ((2 : Nat), (2 : Nat), (2 : Nat)) ++
      [((0 : Nat), (1 : Nat), (0 : Nat))]) = .error .incompleteMessage :=
  ⟨by decide,
   (C6_extract_completeness _ 1 (by decide) (by decide)).1 (by decide)⟩

/-- C7: `_bits_to_bytes` is total, returns exactly `floor(len / 8)` bytes,
and each byte is the MSB-first fold of the corresponding group of 8 bits;
trailing bits that do not complete a byte are silently discarded (they fall
outside every listed group). -/
theorem C7_unpackBits_truncation (bits : List Nat) :
    (bits_to_bytes bits).length = bits.length / 8 ∧
    bits_to_bytes bits = (List.range (bits.length / 8)).map
      (fun k => ((bits.drop (8 * k)).take 8).foldl (fun a b => a <<< 1 ||| b) 0) :=
  ⟨length_bits_to_bytes bits, bits_to_bytes_chunks_aux bits.length bits rfl⟩

/-- C8: the capacity report computed by `compute_bpp` satisfies all the
claimed field equations (header 32 bits, payload 8 bits per UTF-8 byte,
totals, capacity at 3 bits per pixel, bytes as floor of bits over 8, the
bits-per-pixel quotient with the zero-pixel guard, and the fits flag), and
it is a pure function of width, height and message byte length. -/
theorem C8_compute_bpp (width height : Nat) (msg : List Char) :
    (compute_bpp width height msg).header_bits = 32 ∧
    (compute_bpp width height msg).payload_bits = (utf8Encode msg).length * 8 ∧
    (compute_bpp width height msg).total_bits =
      (compute_bpp width height msg).header_bits +
        (compute_bpp width height msg).payload_bits ∧
    (compute_bpp width height msg).capacity_bits = width * height * 3 ∧
    (compute_bpp width height msg).capacity_bytes =
      (compute_bpp width height msg).capacity_bits / 8 ∧
    (compute_bpp width height msg).used_bpp =
      (if width * height = 0 then 0
       else ((compute_bpp width height msg).total_bits : ℚ) /
         ((width * height : Nat) : ℚ)) ∧
    ((compute_bpp width height msg).fits = true ↔
      (compute_bpp width height msg).total_bits ≤
        (compute_bpp width height msg).capacity_bits) ∧
    (∀ msg2 : List Char, (utf8Encode msg2).length = (utf8Encode msg).length →
      compute_bpp width height msg2 = compute_bpp width height msg) := by
  refine ⟨rfl, rfl, rfl, by simp [compute_bpp], rfl, by simp [compute_bpp], ?_, ?_⟩
  · simp [compute_bpp]
  · intro msg2 h
    simp [compute_bpp, h]

/-- C8 witness: the claim's concrete 100-by-100 scenario with a 6-byte
message fits, and a different message of the same UTF-8 length yields the
identical report. -/
theorem C8_compute_bpp_witness :
    (compute_bpp 100 100 (List.replicate 6 (Char.ofNat 97))).fits = true ∧
    compute_bpp 100 100 (List.replicate 6 (Char.ofNat 98)) =
      compute_bpp 100 100 (List.replicate 6 (Char.ofNat 97)) := by
  have h := C8_compute_bpp 100 100 (List.replicate 6 (Char.ofNat 97))
  exact ⟨(h.2.2.2.2.2.2.1).mpr (by decide), h.2.2.2.2.2.2.2 _ (by decide)⟩

/-- C9: whenever embedding succeeds on a channel sequence whose entries all
lie in 0..255, every entry of the output channel sequence also lies in
0..255 — writing a bit into `(c & 0xFE) | b` never leaves the 8-bit
range. -/
theorem C9_range_invariant (pixels : List Pixel) (msg : List Char) (out : List Pixel)
    (hrange : ∀ c ∈ channelsOf pixels, c ≤ 255)
    (hok : embed_message pixels msg = .ok out) :
    ∀ c ∈ channelsOf out, c ≤ 255 := by
  have hlen : (utf8Encode msg).length ≤ 0xFFFFFFFF := by
    by_contra h
    rw [embed_error_of_len pixels msg (by omega)] at hok
    simp at hok
  have hcap : 32 + 8 * (utf8Encode msg).length ≤ pixels.length * 3 := by
    by_contra h
    rw [embed_capacity_error pixels msg hlen (by omega)] at hok
    simp at hok
  have hout : out =
      embedLoop (to_bits (lengthDigits (utf8Encode msg).length ++ utf8Encode msg)) pixels := by
    rw [embed_ok_eq pixels msg hlen hcap] at hok
    injection hok with h
    exact h.symm
  rw [hout, channelsOf_embedLoop]
  exact mem_writeBits_le (channelsOf pixels) _ (to_bits_lt_two _) hrange

/-- C9 witness: the embed of C1's concrete scenario keeps all channel
values in 0..255. -/
theorem C9_range_invariant_witness :
    (∀ c ∈ channelsOf (List.replicate 11 ((9 : Nat), (254 : Nat), (255 : Nat))), c ≤ 255) ∧
    embed_message (List.replicate 11 ((9 : Nat), (254 : Nat), (255 : Nat))) [] =
      .ok (List.replicate 10 ((8 : Nat), (254 : Nat), (254 : Nat)) ++ [(8, 254, 255)]) ∧
    (∀ c ∈ channelsOf (List.replicate 10 ((8 : Nat), (254 : Nat), (254 : Nat)) ++
      [(8, 254, 255)]), c ≤ 255) :=
  ⟨by decide, by decide,
   C9_range_invariant (List.replicate 11 ((9 : Nat), (254 : Nat), (255 : Nat))) []
     (List.replicate 10 ((8 : Nat), (254 : Nat), (254 : Nat)) ++ [(8, 254, 255)])
     (by decide) (by decide)⟩

/-- C10: extraction reads nothing but the LSBs of the first `32 + 8 * L`
channel entries, where `L` is the length decoded from the first 32 LSBs:
two channel sequences that are long enough and agree on those LSBs extract
to the same text, whatever their other bits and later entries hold. -/
theorem C10_tail_noninterference (p1 p2 : List Pixel) (L : Nat)
    (hL : L = (bits_to_bytes ((bitsOf p1).take 32)).foldl
      (fun acc b => acc * 256 + b) 0)
    (h1 : 32 + 8 * L ≤ (bitsOf p1).length)
    (h2 : 32 + 8 * L ≤ (bitsOf p2).length)
    (hagree : (bitsOf p1).take (32 + 8 * L) = (bitsOf p2).take (32 + 8 * L)) :
    extract_message p1 = extract_message p2 := by
  have htake32 : (bitsOf p1).take 32 = (bitsOf p2).take 32 := by
    have h := congrArg (List.take 32) hagree
    rwa [List.take_take, List.take_take, show min 32 (32 + 8 * L) = 32 by omega] at h
  have hL2 : L = (bits_to_bytes ((bitsOf p2).take 32)).foldl
      (fun acc b => acc * 256 + b) 0 := by
    rw [← htake32, ← hL]
  have hmsg : ((bitsOf p1).drop 32).take (L * 8) = ((bitsOf p2).drop 32).take (L * 8) := by
    rw [List.take_drop, List.take_drop, show 32 + L * 8 = 32 + 8 * L by ring, hagree]
  rw [extract_spec p1 (by omega), extract_spec p2 (by omega), ← hL, ← hL2]
  by_cases hcond : (bitsOf p1).length - 32 < L * 8
  · rw [if_pos hcond, if_pos (by omega)]
  · rw [if_neg hcond, if_neg (by omega), hmsg]

/-- C10 witness: an 11-pixel image and a 12-pixel image with different
channel values but the same LSBs on the first 32 entries (decoding to
length 0) extract to the same (empty) text. -/
theorem C10_tail_noninterference_witness :
    0 = (bits_to_bytes ((bitsOf (List.replicate 11
      ((0 : Nat), (0 : Nat), (0 : Nat)))).take 32)).foldl (fun acc b => acc * 256 + b) 0 ∧
    32 + 8 * 0 ≤ (bitsOf (List.replicate 11 ((0 : Nat), (0 : Nat), (0 : Nat)))).length ∧
    32 + 8 * 0 ≤ (bitsOf (List.replicate 12 ((2 : Nat), (4 : Nat), (6 : Nat)))).length ∧
    (bitsOf (List.replicate 11 ((0 : Nat), (0 : Nat), (0 : Nat)))).take (32 + 8 * 0) =
      (bitsOf (List.replicate 12 ((2 : Nat), (4 : Nat), (6 : Nat)))).take (32 + 8 * 0) ∧
    extract_message (List.replicate 11 ((0 : Nat), (0 : Nat), (0 : Nat))) =
      extract_message (List.replicate 12 ((2 : Nat), (4 : Nat), (6 : Nat))) :=
  ⟨by decide, by decide, by decide, by decide,
   C10_tail_noninterference _ _ 0 (by decide) (by decide) (by decide) (by decide)⟩
